import Mathlib

/-
Verification of the lupa-esg document-ingestion pipeline.

Each definition below is a shallow embedding of the corresponding Python
function of the repository; the source file and function are named in the
doc comment.  Machine-level collaborators that are not code of this
repository (the MongoDB driver, Python `hashlib`, `lxml` XPath evaluation,
`base64`) are modelled at the granularity the repository code observes:
the MongoDB collection is a list of records and `update_one`/`find` are
given their documented semantics, the MD5 digest is a deterministic
function of the byte content, and XPath node sets arrive as explicit lists.
Dates are totally ordered values (day numbers), byte strings are lists of
byte values, and Python `None`/exception outcomes are `Option`/`Except`.
-/

namespace LupaESG

open List

/-! ## Shared string machinery

Python compares strings lexicographically by code point; `String`'s
library order is not kernel-reducible, so the comparator, the substring
check (Python's `in`) and the suffix check (`str.endswith`) are defined
over the underlying character lists. -/

/-- Lexicographic comparison of character lists by code point, the order
Python uses when `sort_values` sorts a string column. -/
def charListLE : List Char → List Char → Bool
  | [], _ => true
  | _ :: _, [] => false
  | a :: as, b :: bs =>
    if a.toNat = b.toNat then charListLE as bs else decide (a.toNat < b.toNat)

/-- String comparison via `charListLE`. -/
def strLEb (s t : String) : Bool :=
  charListLE s.toList t.toList

/-- Containment of `pat` in a character list, modelling Python's
`pat in s` on strings. -/
def listContains (pat : List Char) : List Char → Bool
  | [] => pat.isEmpty
  | c :: t => pat.isPrefixOf (c :: t) || listContains pat t

/-- Python's `pat in hay` on strings. -/
def strContainsB (hay pat : String) : Bool :=
  listContains pat.toList hay.toList

/-- Python's `s.endswith(suf)`. -/
def strEndsWithB (s suf : String) : Bool :=
  suf.toList.isSuffixOf s.toList

/-- Zero-padding of a decimal numeral to width `w`, as in Python's
`f"{n:06d}"` and `strftime` field padding. -/
def zfill (w : Nat) (n : Nat) : String :=
  String.mk (List.replicate (w - (toString n).length) '0') ++ toString n

/-! ## Filing Selector (src/data/cvm/processor.py)

`CVMProcessor.get_latest_documents` sorts the bulk CSV rows by
`['CNPJ_CIA', 'DT_RECEB', 'VERSAO']` with `ascending=[True, False, False]`
and then takes `groupby('CNPJ_CIA').first()`. -/

/-- A reference date, as parsed from the CSV `DT_REFER` column
(`insert_document` reads only its `.year`). -/
structure PyDate where
  year : Nat
  month : Nat
  day : Nat
  deriving DecidableEq, Repr

/-- One row of the CVM bulk CSV as consumed by `get_latest_documents` and
`insert_document`: issuer tax id `CNPJ_CIA`, receipt date `DT_RECEB`
(totally ordered, modelled as a day number), version `VERSAO`, issuer code
`CD_CVM`, plus the remaining columns `insert_document` copies over. -/
structure FilingRow where
  cnpj : String
  dt_receb : Nat
  versao : Nat
  cd_cvm : Nat
  dt_refer : PyDate
  id_doc : Nat
  categ_doc : String
  link_doc : String
  deriving DecidableEq, Repr

/-- The row comparator realised by
`sort_values(by=['CNPJ_CIA','DT_RECEB','VERSAO'], ascending=[True,False,False])`:
tax id ascending, then receipt date descending, then version descending. -/
def rowLE (a b : FilingRow) : Bool :=
  if a.cnpj = b.cnpj then
    if a.dt_receb = b.dt_receb then decide (b.versao ≤ a.versao)
    else decide (b.dt_receb ≤ a.dt_receb)
  else strLEb a.cnpj b.cnpj

/-- Relation form of `rowLE`.  `sort_values` promises a sequence
that is sorted under `rowLE` and a permutation of the input, with the order
of full ties deterministic; insertion sort realises exactly that
contract. -/
abbrev rowLEP (a b : FilingRow) : Prop := rowLE a b = true

/-- Recursion of `firstPerCnpj`: drop rows whose tax id was already seen,
keep the first row of each new tax id. -/
def firstPerCnpjAux (seen : List String) : List FilingRow → List FilingRow
  | [] => []
  | r :: rs =>
    if r.cnpj ∈ seen then firstPerCnpjAux seen rs
    else r :: firstPerCnpjAux (r.cnpj :: seen) rs

/-- Embedding of `groupby('CNPJ_CIA').first()` applied to a frame whose leading sort key
is the tax id: keep the first row of each distinct tax id, in order. -/
def firstPerCnpj (rows : List FilingRow) : List FilingRow :=
  firstPerCnpjAux [] rows

/-- Embedding of `CVMProcessor.get_latest_documents` (src/data/cvm/processor.py, lines
50-74): sort the rows by (tax id asc, receipt date desc, version desc) and
keep the first row per tax id. -/
def get_latest_documents (rows : List FilingRow) : List FilingRow :=
  firstPerCnpj (List.insertionSort rowLEP rows)

/-! ## Processing State Tracker (src/data/db/mongodb.py)

The `documents` collection is modelled as a list of records; `update_one`
updates the first record matching its filter, `find` filters, sorts and
truncates.  The reserved bookkeeping paths
`metadata.tentativas_processamento` and `metadata.ultimo_erro` are modelled
as dedicated record fields; the remaining `metadata.*` keys (`arquivos`,
`stats`, `dados_esg`, ...) form an association list whose values the store
treats opaquely. -/

/-- Embedding of `ProcessingStatus` (src/data/db/mongodb.py, lines 9-17). -/
inductive ProcessingStatus where
  | pending
  | downloading
  | downloaded
  | processing
  | xml_extracted
  | processed
  | error
  deriving DecidableEq, Repr

/-- The `.value` string of each `ProcessingStatus` member. -/
def ProcessingStatus.value : ProcessingStatus → String
  | .pending => "pending"
  | .downloading => "downloading"
  | .downloaded => "downloaded"
  | .processing => "processing"
  | .xml_extracted => "xml_extracted"
  | .processed => "processed"
  | .error => "error"

/-- A metadata value.  The store only ever sets whole values at a
`metadata.<key>` path, so values are modelled to the depth the store
observes: strings, numbers, and flat maps of strings. -/
inductive MVal where
  | str : String → MVal
  | num : Int → MVal
  | pairs : List (String × String) → MVal
  deriving DecidableEq, Repr

/-- One record of the `documents` collection, with the fields written by
`insert_document` and `update_document_status`. -/
structure StoredDoc where
  id : Nat
  cod_cvm : Nat
  ano_referencia : Nat
  dt_referencia : PyDate
  dt_recebimento : Nat
  versao : Nat
  id_documento : Nat
  tipo : String
  url : String
  status : String
  data_inclusao : Nat
  data_modificacao : Nat
  tentativas_processamento : Nat
  ultimo_erro : Option String
  meta : List (String × MVal)
  deriving DecidableEq, Repr

/-- The `update_one` semantics on a list-modelled collection: rewrite the first
record matching `p` with `f`. -/
def updateFirst {α : Type} (p : α → Bool) (f : α → α) : List α → List α
  | [] => []
  | x :: xs => if p x then f x :: xs else x :: updateFirst p f xs

/-- First-match lookup in an association list, the semantics of reading a
field of a MongoDB subdocument. -/
def metaLookup {β : Type} : List (String × β) → String → Option β
  | [], _ => none
  | (k', v) :: rest, k => if k' = k then some v else metaLookup rest k

/-- One `$set` of a single `metadata.<key>` path: replace the first binding of
`k`, or append one if `k` is absent. -/
def setKey {β : Type} : List (String × β) → String → β → List (String × β)
  | [], k, v => [(k, v)]
  | (k', v') :: rest, k, v =>
    if k' = k then (k, v) :: rest else (k', v') :: setKey rest k v

/-- Sequential `$set` of one `metadata.<key>` path per entry of the patch, in order —
the loop `for key, value in metadata.items(): update['$set'][f'metadata.{key}'] = value`. -/
def setKeys {β : Type} : List (String × β) → List (String × β) →
    List (String × β)
  | m, [] => m
  | m, (k, v) :: rest => setKeys (setKey m k v) rest

/-- The fresh `document` dict built by `insert_document`
(src/data/db/mongodb.py, lines 113-131): status `PENDING`, zero retries, no
last error, empty `arquivos`/`stats` maps, both timestamps set to now. -/
def freshDocument (row : FilingRow) (now : Nat) (docId : Nat) : StoredDoc :=
  { id := docId
    cod_cvm := row.cd_cvm
    ano_referencia := row.dt_refer.year
    dt_referencia := row.dt_refer
    dt_recebimento := row.dt_receb
    versao := row.versao
    id_documento := row.id_doc
    tipo := row.categ_doc
    url := row.link_doc
    status := ProcessingStatus.pending.value
    data_inclusao := now
    data_modificacao := now
    tentativas_processamento := 0
    ultimo_erro := none
    meta := [("arquivos", MVal.pairs []), ("stats", MVal.pairs [])] }

/-- Filter of the `insert_document` upsert: same `cod_cvm` and the same
reference year. -/
def docKeyMatch (row : FilingRow) (d : StoredDoc) : Bool :=
  decide (d.cod_cvm = row.cd_cvm) && decide (d.ano_referencia = row.dt_refer.year)

/-- Embedding of `MongoDB.insert_document` (src/data/db/mongodb.py, lines 99-150):
`update_one` keyed on `(cod_cvm, ano_referencia)` with `$set: document` and
`upsert=True` — an existing record keeps only its `_id` and has every other
field replaced by the fresh document; otherwise the fresh document is
inserted with a new id. -/
def insert_document (docs : List StoredDoc) (row : FilingRow) (newId : Nat)
    (now : Nat) : List StoredDoc :=
  if docs.any (docKeyMatch row) then
    updateFirst (docKeyMatch row) (fun d => freshDocument row now d.id) docs
  else
    docs ++ [freshDocument row now newId]

/-- Embedding of `MongoDB.get_pending_documents` (src/data/db/mongodb.py, lines
152-177): `find` on status-in-list and retry-count-below-ceiling, sorted by
`data_inclusao` ascending, truncated to `limit`; a `None` status argument
defaults to `[PENDING]`. -/
def get_pending_documents (docs : List StoredDoc) (limit : Nat)
    (statusOpt : Option (List String)) (max_retries : Nat) : List StoredDoc :=
  let status := statusOpt.getD [ProcessingStatus.pending.value]
  (List.insertionSort (fun a b => a.data_inclusao ≤ b.data_inclusao)
    (docs.filter fun d =>
      decide (d.status ∈ status) &&
      decide (d.tentativas_processamento < max_retries))).take limit

/-- The single-record effect of `update_document_status`: set the status
string and the modification timestamp, increment the retry counter, record
`error` as the last error when it is truthy, and `$set` one
`metadata.<key>` path per patch entry when the patch dict is truthy. -/
def applyStatusUpdate (st : ProcessingStatus) (error : Option String)
    (metadata : Option (List (String × MVal))) (now : Nat) (d : StoredDoc) :
    StoredDoc :=
  { d with
    status := st.value
    data_modificacao := now
    tentativas_processamento := d.tentativas_processamento + 1
    ultimo_erro :=
      match error with
      | some e => if e = "" then d.ultimo_erro else some e
      | none => d.ultimo_erro
    meta :=
      match metadata with
      | some patch => if patch.isEmpty then d.meta else setKeys d.meta patch
      | none => d.meta }

/-- Embedding of `MongoDB.update_document_status` (src/data/db/mongodb.py, lines
179-217): `update_one` on `_id` applying `applyStatusUpdate`. -/
def update_document_status (docs : List StoredDoc) (docId : Nat)
    (st : ProcessingStatus) (error : Option String)
    (metadata : Option (List (String × MVal))) (now : Nat) : List StoredDoc :=
  updateFirst (fun d => decide (d.id = docId))
    (applyStatusUpdate st error metadata now) docs

/-- Read a record back by `_id` (first match, as `find_one`). -/
def getDoc (docs : List StoredDoc) (docId : Nat) : Option StoredDoc :=
  docs.find? fun d => decide (d.id = docId)

/-! ## Archive Resolver (src/data/cvm/xml_processor.py)

`XMLProcessor._extract_fre_xml` scans the ZIP member names for the one FRE
markup member. -/

/-- The expected member-name fragment,
`f"{int(cod_cvm):06d}FRE{dt_refer.strftime('%d-%m-%Y')}v{versao}"`
(src/data/cvm/xml_processor.py, lines 71-72). -/
def expected_pattern (cod_cvm : Nat) (day month year : Nat) (versao : Nat) :
    String :=
  zfill 6 cod_cvm ++ "FRE" ++ zfill 2 day ++ "-" ++ zfill 2 month ++ "-" ++
    zfill 4 year ++ "v" ++ toString versao

/-- The member test of the resolver loop: not a registration form
(`'FormularioCadastral' not in xml`) and contains the expected fragment. -/
def freMatch (pat name : String) : Bool :=
  !(strContainsB name "FormularioCadastral") && strContainsB name pat

/-- Embedding of `XMLProcessor._extract_fre_xml` (src/data/cvm/xml_processor.py, lines
53-98) restricted to its member-selection logic: keep the `.xml` member
names, return the first one passing `freMatch`, and raise `ValueError`
(modelled as `Except.error` carrying the message) when none does.  The
filesystem extraction of the chosen member is I/O outside the embedding. -/
def extract_fre_xml (namelist : List String) (cod_cvm : Nat)
    (day month year : Nat) (versao : Nat) : Except String String :=
  let pat := expected_pattern cod_cvm day month year versao
  let xml_files := namelist.filter fun f => strEndsWithB f ".xml"
  match xml_files.find? (freMatch pat) with
  | some f => Except.ok f
  | none => Except.error ("XML do FRE nao encontrado para o padrao: " ++ pat)

/-! ## Structured Extractor (src/data/cvm/esg_extractor.py)

XML elements are trees of (tag, optional text, children); `elem.find(tag)`
is first-child-by-tag.  XPath node sets (`root.xpath(...)`) are produced by
the external `lxml` engine and arrive as explicit element lists. -/

/-- An XML element: tag, optional text, children. -/
inductive XElem where
  | node : String → Option String → List XElem → XElem

/-- Tag of an element. -/
def XElem.tag : XElem → String
  | .node t _ _ => t

/-- Text of an element (`None` when the element has no text). -/
def XElem.text : XElem → Option String
  | .node _ tx _ => tx

/-- Children of an element. -/
def XElem.children : XElem → List XElem
  | .node _ _ cs => cs

/-- Embedding of `elem.find(tag)`: the first direct child with the given tag, `None`
when there is none. -/
def XElem.find (e : XElem) (tag : String) : Option XElem :=
  e.children.find? fun c => decide (c.tag = tag)

/-- Test for the decimal-digit characters. -/
def isDigitChar (c : Char) : Bool :=
  decide (48 ≤ c.toNat) && decide (c.toNat ≤ 57)

/-- Value of a digit run, most significant first. -/
def digitsVal (cs : List Char) : Nat :=
  cs.foldl (fun acc c => acc * 10 + (c.toNat - 48)) 0

/-- Python `int(s)` on the numerals the filings carry: optional
surrounding spaces, an optional sign, then a nonempty digit run; anything
else raises `ValueError`, modelled as `none`. -/
def pyParseInt (s : String) : Option Int :=
  let cs := (s.toList.dropWhile (· = ' ')).reverse.dropWhile (· = ' ') |>.reverse
  match cs with
  | '+' :: rest =>
    if rest ≠ [] ∧ rest.all isDigitChar then some (Int.ofNat (digitsVal rest))
    else none
  | '-' :: rest =>
    if rest ≠ [] ∧ rest.all isDigitChar then some (-(Int.ofNat (digitsVal rest)))
    else none
  | rest =>
    if rest ≠ [] ∧ rest.all isDigitChar then some (Int.ofNat (digitsVal rest))
    else none

/-- Python `float(s)` on the finite decimal numerals the filings carry
(optional surrounding spaces, optional sign, digits with one optional
point, at least one digit), as an exact rational; anything else raises
`ValueError`, modelled as `none`. -/
def pyParseFloat (s : String) : Option ℚ :=
  let cs := (s.toList.dropWhile (· = ' ')).reverse.dropWhile (· = ' ') |>.reverse
  let sgn : Int :=
    match cs with
    | '-' :: _ => -1
    | _ => 1
  let body :=
    match cs with
    | '+' :: rest => rest
    | '-' :: rest => rest
    | rest => rest
  let ip := body.takeWhile isDigitChar
  let rest := body.dropWhile isDigitChar
  match rest with
  | [] =>
    if ip ≠ [] then some (Rat.divInt (sgn * digitsVal ip) 1) else none
  | '.' :: fp =>
    if fp.all isDigitChar ∧ (ip ≠ [] ∨ fp ≠ []) then
      some (Rat.divInt
        (sgn * ((digitsVal ip) * 10 ^ fp.length + digitsVal fp))
        ((10 : Int) ^ fp.length))
    else none
  | _ => none

/-- Embedding of `ESGDataExtractor._get_int_value` (src/data/cvm/esg_extractor.py, lines
259-265): `int(value.text)` when the leaf exists and its text is truthy,
`0` on an absent leaf, empty text, or a `ValueError`; the function never
raises. -/
def get_int_value (e : XElem) (tag : String) : Int :=
  match e.find tag with
  | none => 0
  | some leaf =>
    match leaf.text with
    | none => 0
    | some s => if s = "" then 0 else (pyParseInt s).getD 0

/-- Embedding of `ESGDataExtractor._get_float_value` (src/data/cvm/esg_extractor.py,
lines 267-273): the `float` analogue of `get_int_value`. -/
def get_float_value (e : XElem) (tag : String) : ℚ :=
  match e.find tag with
  | none => 0
  | some leaf =>
    match leaf.text with
    | none => 0
    | some s => if s = "" then 0 else (pyParseFloat s).getD 0

/-- Modelled from the spec: `hashlib.md5(content).hexdigest()` is a Python
standard-library primitive, not code of this repository; the spec only
relies on it being a deterministic digest of the byte content, which is how
it is modelled here. -/
def md5hex (content : List Nat) : String :=
  toString (content.foldl (fun h b => (h * 257 + b + 1) % 1000000007) 0)

/-- Metadata of one stored attachment, the dict returned by `_save_pdf`. -/
structure PdfInfo where
  nome_arquivo : String
  hash : String
  path : String
  deriving DecidableEq, Repr

/-- Embedding of `ESGDataExtractor._save_pdf` (src/data/cvm/esg_extractor.py, lines
62-89): falsy (empty) content yields `None`; otherwise the file name is
`f"{section_name}_{md5(content)}.pdf"` and the file is written under the
issuer's temp dir. -/
def save_pdf (pdf_content : List Nat) (section_name : String)
    (temp_dir : String) : Option PdfInfo :=
  if pdf_content = [] then none
  else
    let pdf_hash := md5hex pdf_content
    let filename := section_name ++ "_" ++ pdf_hash ++ ".pdf"
    some { nome_arquivo := filename
           hash := pdf_hash
           path := temp_dir ++ "/" ++ filename }

/-- The fixed section catalog of `_extract_documents`
(src/data/cvm/esg_extractor.py, lines 101-124), in dict order. -/
def sections : List String :=
  ["info_asg", "programa_integridade", "gestao_riscos", "controles_internos",
   "recursos_humanos", "fatores_risco", "fatores_risco_principais",
   "historico", "atividades_controladas", "segmentos_operacionais",
   "producao_mercados", "regulacao_estatal", "economia_mista",
   "alteracoes_negocios", "plano_negocios", "caracteristicas_orgaos",
   "conselho_adm", "politica_remuneracao", "remuneracao_empregados"]

/-- Embedding of `ESGDataExtractor._extract_documents` (src/data/cvm/esg_extractor.py,
lines 91-138): for each catalog section whose XPath hits a node with
truthy text, decode the base64 payload and store it via `save_pdf`.
The XPath lookup and base64 decoding are external collaborators; their
combined outcome per section is the input map from section name to decoded
payload bytes. -/
def extract_documents (payloads : List (String × List Nat))
    (temp_dir : String) : List (String × PdfInfo) :=
  sections.foldl
    (fun acc sec =>
      match metaLookup payloads sec with
      | none => acc
      | some content =>
        match save_pdf content sec temp_dir with
        | none => acc
        | some info => acc ++ [(sec, info)])
    []

/-- Per-body ethnicity/race counts, the `cor_raca` dict of
`_extract_admin_diversity`. -/
structure CorRaca where
  amarelo : Int
  branco : Int
  preto : Int
  pardo : Int
  indigena : Int
  outros : Int
  nao_informado : Int
  deriving DecidableEq, Repr

/-- Per-body gender counts, the `genero` dict of
`_extract_admin_diversity`. -/
structure Genero where
  masculino : Int
  feminino : Int
  nao_binario : Int
  outros : Int
  nao_informado : Int
  deriving DecidableEq, Repr

/-- One governance-body diversity record.  The Python dict holds the keys
`orgao`, optionally `cor_raca`, optionally `genero`. -/
structure DivRecord where
  orgao : Option String
  cor_raca : Option CorRaca
  genero : Option Genero
  deriving DecidableEq, Repr

/-- The `cor_raca` counts read from one ethnicity/race entry. -/
def corRacaOf (e : XElem) : CorRaca :=
  { amarelo := get_int_value e "Amarelo"
    branco := get_int_value e "Branco"
    preto := get_int_value e "Preto"
    pardo := get_int_value e "Pardo"
    indigena := get_int_value e "Indigena"
    outros := get_int_value e "Outros"
    nao_informado := get_int_value e "PrefereNaoResponder" }

/-- The `genero` counts read from one gender entry. -/
def generoOf (e : XElem) : Genero :=
  { masculino := get_int_value e "Masculino"
    feminino := get_int_value e "Feminino"
    nao_binario := get_int_value e "NaoBinario"
    outros := get_int_value e "Outros"
    nao_informado := get_int_value e "PrefereNaoResponder" }

/-- First pass of `_extract_admin_diversity` (src/data/cvm/esg_extractor.py,
lines 149-166): one record appended per ethnicity/race entry carrying an
`OrgaoAdministracao` child. -/
def admin_diversity_pass1 (racaElems : List XElem) : List DivRecord :=
  racaElems.foldl
    (fun acc e =>
      match e.find "OrgaoAdministracao" with
      | none => acc
      | some orgao =>
        acc ++ [{ orgao := orgao.text
                  cor_raca := some (corRacaOf e)
                  genero := none }])
    []

/-- One step of the second (gender) pass (src/data/cvm/esg_extractor.py,
lines 168-185): find the first record with the same `orgao` value and set
its `genero`, or append a fresh record (without `cor_raca`) when none
exists. -/
def admin_diversity_step (acc : List DivRecord) (e : XElem) : List DivRecord :=
  match e.find "OrgaoAdministracao" with
  | none => acc
  | some orgao =>
    if acc.any fun d => decide (d.orgao = orgao.text) then
      updateFirst (fun d => decide (d.orgao = orgao.text))
        (fun d => { d with genero := some (generoOf e) }) acc
    else
      acc ++ [{ orgao := orgao.text, cor_raca := none,
                genero := some (generoOf e) }]

/-- Embedding of `ESGDataExtractor._extract_admin_diversity`
(src/data/cvm/esg_extractor.py, lines 140-187), as the list bound to the
`"diversidade"` key of its result: the ethnicity/race pass followed by the
find-or-create gender pass. -/
def extract_admin_diversity (racaElems generoElems : List XElem) :
    List DivRecord :=
  generoElems.foldl admin_diversity_step (admin_diversity_pass1 racaElems)

/-- The last gender entry naming a given governing body.  Each matching
entry of the second pass overwrites the record's `genero` key, so the
breakdown the final record carries is the one of the last matching
entry. -/
def lastGenderFor : List XElem → Option String → Option XElem
  | [], _ => none
  | e :: t, nm =>
    match lastGenderFor t nm with
    | some e' => some e'
    | none =>
      match e.find "OrgaoAdministracao" with
      | none => none
      | some orgao => if orgao.text = nm then some e else none

/-! ## Concrete data used by the witness theorems -/

/-- The bulk-table row of the end-to-end selector scenario: tax id `"X"`,
version 3, received 2024-01-10. -/
def wRowV3 : FilingRow :=
  { cnpj := "X", dt_receb := 20240110, versao := 3, cd_cvm := 14206,
    dt_refer := ⟨2024, 12, 31⟩, id_doc := 1, categ_doc := "FRE",
    link_doc := "u1" }

/-- The bulk-table row of the end-to-end selector scenario: tax id `"X"`,
version 5, received 2024-01-09. -/
def wRowV5 : FilingRow :=
  { cnpj := "X", dt_receb := 20240109, versao := 5, cd_cvm := 14206,
    dt_refer := ⟨2024, 12, 31⟩, id_doc := 2, categ_doc := "FRE",
    link_doc := "u2" }

/-- A freshly inserted record for the tracker scenarios. -/
def wDoc0 : StoredDoc := freshDocument wRowV3 0 1

/-- The tracker scenario store after the five `advance` calls
`PENDING → DOWNLOADING → DOWNLOADED → PROCESSING → XML_EXTRACTED → PROCESSED`,
with the metadata patches the orchestrator
(src/data/cvm/xml_processor.py, lines 124-182) passes at each stage. -/
def wStore5 : List StoredDoc :=
  update_document_status
    (update_document_status
      (update_document_status
        (update_document_status
          (update_document_status [wDoc0] 1 .downloading none none 1)
          1 .downloaded none (some [("arquivos", MVal.pairs [("zip_path", "/z")])]) 2)
        1 .processing none none 3)
      1 .xml_extracted none
      (some [("arquivos", MVal.pairs [("zip_path", "/z"), ("xml_path", "/x")])]) 4)
    1 .processed none
    (some [("arquivos", MVal.pairs [("zip_path", "/z"), ("xml_path", "/x")]),
           ("dados_esg", MVal.str "payload"),
           ("stats", MVal.pairs [("processado_em", "t")])]) 5

/-- A pending record created at time 10. -/
def wPendA : StoredDoc := freshDocument wRowV3 10 1

/-- A pending record created at time 3 that has exhausted five attempts. -/
def wPendB : StoredDoc :=
  { freshDocument wRowV5 3 2 with tentativas_processamento := 5 }

/-- A pending record created at time 7. -/
def wPendC : StoredDoc := freshDocument wRowV5 7 3

/-- A parsed element with one malformed numeric leaf and one empty leaf. -/
def wElem : XElem :=
  .node "root" none
    [.node "Amarelo" (some "xx") [], .node "RazaoRemuneracoes" none []]

/-- An ethnicity/race entry for the body named `"Conselho"`. -/
def wRacaElem : XElem :=
  .node "CorRaca" none
    [.node "OrgaoAdministracao" (some "Conselho") [],
     .node "Branco" (some "5") []]

/-- A gender entry for the body named `"Conselho"`, already seen in the
first pass. -/
def wGenElem : XElem :=
  .node "Genero" none
    [.node "OrgaoAdministracao" (some "Conselho") [],
     .node "Feminino" (some "2") []]

/-- A gender entry for the body named `"Fiscal"`, absent from the first
pass. -/
def wGenElem2 : XElem :=
  .node "Genero" none
    [.node "OrgaoAdministracao" (some "Fiscal") [],
     .node "Masculino" (some "3") []]

/-! ## Order lemmas for the Filing Selector comparator -/

theorem charToNat_inj {a b : Char} (h : a.toNat = b.toNat) : a = b :=
  Char.eq_of_val_eq (UInt32.ext h)

theorem charListLE_total : ∀ as bs, charListLE as bs || charListLE bs as := by
  intro as
  induction as with
  | nil => intro bs; simp [charListLE]
  | cons a as ih =>
    intro bs
    cases bs with
    | nil => simp [charListLE]
    | cons b bs =>
      simp only [charListLE]
      by_cases h : a.toNat = b.toNat
      · rw [if_pos h, if_pos h.symm]
        exact ih bs
      · rw [if_neg h, if_neg (fun hh => h hh.symm)]
        simp only [Bool.or_eq_true, decide_eq_true_eq]
        omega

theorem charListLE_trans :
    ∀ as bs cs, charListLE as bs → charListLE bs cs → charListLE as cs := by
  intro as
  induction as with
  | nil => intro bs cs _ _; simp [charListLE]
  | cons a as ih =>
    intro bs cs h1 h2
    cases bs with
    | nil => simp [charListLE] at h1
    | cons b bs =>
      cases cs with
      | nil => simp [charListLE] at h2
      | cons c cs =>
        simp only [charListLE] at h1 h2 ⊢
        by_cases hab : a.toNat = b.toNat <;> by_cases hbc : b.toNat = c.toNat
        · rw [if_pos hab] at h1; rw [if_pos hbc] at h2
          rw [if_pos (hab.trans hbc)]
          exact ih bs cs h1 h2
        · rw [if_pos hab] at h1; rw [if_neg hbc] at h2
          simp only [decide_eq_true_eq] at h2
          rw [if_neg (by omega : ¬ a.toNat = c.toNat)]
          simp only [decide_eq_true_eq]
          omega
        · rw [if_neg hab] at h1; rw [if_pos hbc] at h2
          simp only [decide_eq_true_eq] at h1
          rw [if_neg (by omega : ¬ a.toNat = c.toNat)]
          simp only [decide_eq_true_eq]
          omega
        · rw [if_neg hab] at h1; rw [if_neg hbc] at h2
          simp only [decide_eq_true_eq] at h1 h2
          rw [if_neg (by omega : ¬ a.toNat = c.toNat)]
          simp only [decide_eq_true_eq]
          omega

theorem charListLE_antisymm :
    ∀ as bs, charListLE as bs → charListLE bs as → as = bs := by
  intro as
  induction as with
  | nil =>
    intro bs h1 h2
    cases bs with
    | nil => rfl
    | cons b bs => simp [charListLE] at h2
  | cons a as ih =>
    intro bs h1 h2
    cases bs with
    | nil => simp [charListLE] at h1
    | cons b bs =>
      simp only [charListLE] at h1 h2
      by_cases h : a.toNat = b.toNat
      · rw [if_pos h] at h1; rw [if_pos h.symm] at h2
        rw [charToNat_inj h, ih bs h1 h2]
      · rw [if_neg h] at h1; rw [if_neg (fun hh => h hh.symm)] at h2
        simp only [decide_eq_true_eq] at h1 h2
        omega

theorem strLEb_total (s t : String) : strLEb s t || strLEb t s :=
  charListLE_total _ _

theorem strLEb_trans {s t u : String} (h1 : strLEb s t) (h2 : strLEb t u) :
    strLEb s u :=
  charListLE_trans _ _ _ h1 h2

theorem strLEb_antisymm {s t : String} (h1 : strLEb s t) (h2 : strLEb t s) :
    s = t := by
  have h : s.data = t.data := charListLE_antisymm _ _ h1 h2
  cases s
  cases t
  exact congrArg String.mk h

theorem rowLE_total (a b : FilingRow) : rowLE a b || rowLE b a := by
  simp only [rowLE]
  by_cases h : a.cnpj = b.cnpj
  · rw [if_pos h, if_pos h.symm]
    by_cases d : a.dt_receb = b.dt_receb
    · rw [if_pos d, if_pos d.symm]
      simp only [Bool.or_eq_true, decide_eq_true_eq]
      omega
    · rw [if_neg d, if_neg (fun hh => d hh.symm)]
      simp only [Bool.or_eq_true, decide_eq_true_eq]
      omega
  · rw [if_neg h, if_neg (fun hh => h hh.symm)]
    exact strLEb_total _ _

theorem rowLE_trans {a b c : FilingRow} (h1 : rowLE a b) (h2 : rowLE b c) :
    rowLE a c := by
  simp only [rowLE] at h1 h2 ⊢
  by_cases hab : a.cnpj = b.cnpj <;> by_cases hbc : b.cnpj = c.cnpj
  · rw [if_pos hab] at h1; rw [if_pos hbc] at h2; rw [if_pos (hab.trans hbc)]
    by_cases d1 : a.dt_receb = b.dt_receb <;> by_cases d2 : b.dt_receb = c.dt_receb
    · rw [if_pos d1] at h1; rw [if_pos d2] at h2; rw [if_pos (d1.trans d2)]
      simp only [decide_eq_true_eq] at h1 h2 ⊢
      omega
    · rw [if_pos d1] at h1; rw [if_neg d2] at h2
      simp only [decide_eq_true_eq] at h1 h2
      rw [if_neg (by omega : ¬ a.dt_receb = c.dt_receb)]
      simp only [decide_eq_true_eq]
      omega
    · rw [if_neg d1] at h1; rw [if_pos d2] at h2
      simp only [decide_eq_true_eq] at h1 h2
      rw [if_neg (by omega : ¬ a.dt_receb = c.dt_receb)]
      simp only [decide_eq_true_eq]
      omega
    · rw [if_neg d1] at h1; rw [if_neg d2] at h2
      simp only [decide_eq_true_eq] at h1 h2
      rw [if_neg (by omega : ¬ a.dt_receb = c.dt_receb)]
      simp only [decide_eq_true_eq]
      omega
  · rw [if_pos hab] at h1; rw [if_neg hbc] at h2
    rw [if_neg (fun h => hbc (hab.symm.trans h))]
    rw [hab]
    exact h2
  · rw [if_neg hab] at h1; rw [if_pos hbc] at h2
    rw [if_neg (fun h => hab (h.trans hbc.symm))]
    rw [← hbc]
    exact h1
  · rw [if_neg hab] at h1; rw [if_neg hbc] at h2
    by_cases hac : a.cnpj = c.cnpj
    · exact absurd (strLEb_antisymm h2 (hac ▸ h1)) hbc
    · rw [if_neg hac]
      exact strLEb_trans h1 h2

/-! ## Lemmas on the groupby-first step -/

theorem mem_firstPerCnpjAux {seen : List String} {l : List FilingRow}
    {x : FilingRow} (h : x ∈ firstPerCnpjAux seen l) : x ∈ l := by
  induction l generalizing seen with
  | nil => simp [firstPerCnpjAux] at h
  | cons r rs ih =>
    simp only [firstPerCnpjAux] at h
    by_cases hs : r.cnpj ∈ seen
    · rw [if_pos hs] at h
      exact List.mem_cons_of_mem _ (ih h)
    · rw [if_neg hs] at h
      rcases List.mem_cons.mp h with h | h
      · exact h ▸ List.mem_cons_self _ _
      · exact List.mem_cons_of_mem _ (ih h)

theorem cnpj_not_seen_firstPerCnpjAux {seen : List String} {l : List FilingRow}
    {x : FilingRow} (h : x ∈ firstPerCnpjAux seen l) : x.cnpj ∉ seen := by
  induction l generalizing seen with
  | nil => simp [firstPerCnpjAux] at h
  | cons r rs ih =>
    simp only [firstPerCnpjAux] at h
    by_cases hs : r.cnpj ∈ seen
    · rw [if_pos hs] at h
      exact ih h
    · rw [if_neg hs] at h
      rcases List.mem_cons.mp h with rfl | h
      · exact hs
      · intro hmem
        exact ih h (List.mem_cons_of_mem _ hmem)

theorem countP_firstPerCnpjAux (seen : List String) (l : List FilingRow)
    (c : String) :
    (firstPerCnpjAux seen l).countP (fun r => decide (r.cnpj = c)) =
      if c ∈ seen then 0 else if c ∈ l.map (·.cnpj) then 1 else 0 := by
  induction l generalizing seen with
  | nil => simp [firstPerCnpjAux]
  | cons r rs ih =>
    simp only [firstPerCnpjAux, List.map_cons]
    by_cases hs : r.cnpj ∈ seen
    · rw [if_pos hs, ih]
      by_cases hc : c ∈ seen
      · simp [hc]
      · have hne : ¬ c ∈ ([r.cnpj] : List String) := by
          simp only [List.mem_singleton]
          exact fun h => hc (h ▸ hs)
        simp only [if_neg hc, List.mem_cons]
        rw [if_congr (Iff.symm (or_iff_right (by simpa using hne))) rfl rfl]
    · rw [if_neg hs, List.countP_cons, ih]
      by_cases hc : c = r.cnpj
      · subst hc
        simp [hs]
      · have hp : decide (r.cnpj = c) = false := by
          simp only [decide_eq_false_iff_not]
          exact fun h => hc h.symm
        simp only [List.mem_cons, hp, Bool.false_eq_true, if_false,
          Nat.add_zero, or_iff_right hc]

theorem rep_firstPerCnpjAux {R : FilingRow → FilingRow → Prop} :
    ∀ {l : List FilingRow} {seen : List String} {w r : FilingRow},
      l.Pairwise R → w ∈ firstPerCnpjAux seen l → r ∈ l →
      r.cnpj = w.cnpj → r = w ∨ R w r := by
  intro l
  induction l with
  | nil => intro seen w r _ hw; simp [firstPerCnpjAux] at hw
  | cons a t ih =>
    intro seen w r hp hw hr hc
    obtain ⟨ha, hp'⟩ := List.pairwise_cons.mp hp
    simp only [firstPerCnpjAux] at hw
    by_cases hs : a.cnpj ∈ seen
    · rw [if_pos hs] at hw
      rcases List.mem_cons.mp hr with rfl | hr'
      · exact absurd (hc ▸ hs) (cnpj_not_seen_firstPerCnpjAux hw)
      · exact ih hp' hw hr' hc
    · rw [if_neg hs] at hw
      rcases List.mem_cons.mp hw with rfl | hw'
      · rcases List.mem_cons.mp hr with rfl | hr'
        · exact Or.inl rfl
        · exact Or.inr (ha r hr')
      · rcases List.mem_cons.mp hr with rfl | hr'
        · exact absurd (hc ▸ List.mem_cons_self _ _)
            (cnpj_not_seen_firstPerCnpjAux hw')
        · exact ih hp' hw' hr' hc

/-- C1: on every input table, the Filing Selector returns exactly one row
per distinct issuer tax id, and each returned row carries the maximum
(receipt date, version) lexicographic pair among its issuer's rows: a later
receipt date always wins, and the version decides only between equal
receipt dates. -/
theorem get_latest_documents_spec (rows : List FilingRow) :
    (∀ c : String,
      (get_latest_documents rows).countP (fun r => decide (r.cnpj = c)) =
        if c ∈ rows.map (·.cnpj) then 1 else 0) ∧
    ∀ w ∈ get_latest_documents rows, w ∈ rows ∧
      ∀ r ∈ rows, r.cnpj = w.cnpj →
        r.dt_receb < w.dt_receb ∨
          (r.dt_receb = w.dt_receb ∧ r.versao ≤ w.versao) := by
  haveI : IsTotal FilingRow rowLEP :=
    ⟨fun a b => by
      have h := rowLE_total a b
      simpa only [Bool.or_eq_true] using h⟩
  haveI : IsTrans FilingRow rowLEP :=
    ⟨fun _ _ _ h1 h2 => rowLE_trans h1 h2⟩
  have hperm : List.Perm (List.insertionSort rowLEP rows) rows :=
    List.perm_insertionSort _ _
  have hsorted : (List.insertionSort rowLEP rows).Pairwise rowLEP :=
    List.sorted_insertionSort _ _
  constructor
  · intro c
    rw [get_latest_documents, firstPerCnpj, countP_firstPerCnpjAux,
      if_neg (List.not_mem_nil c)]
    rw [if_congr ((hperm.map (·.cnpj)).mem_iff) rfl rfl]
  · intro w hw
    rw [get_latest_documents, firstPerCnpj] at hw
    have hwSorted : w ∈ List.insertionSort rowLEP rows := mem_firstPerCnpjAux hw
    refine ⟨hperm.mem_iff.mp hwSorted, ?_⟩
    intro r hr hc
    have hrSorted : r ∈ List.insertionSort rowLEP rows := hperm.mem_iff.mpr hr
    rcases rep_firstPerCnpjAux hsorted hw hrSorted hc with rfl | hWR
    · right
      exact ⟨rfl, le_refl _⟩
    · simp only [rowLEP, rowLE] at hWR
      rw [if_pos hc.symm] at hWR
      by_cases d : w.dt_receb = r.dt_receb
      · rw [if_pos d] at hWR
        simp only [decide_eq_true_eq] at hWR
        right
        exact ⟨d.symm, hWR⟩
      · rw [if_neg d] at hWR
        simp only [decide_eq_true_eq] at hWR
        left
        omega

/-- Witness for C1: on the end-to-end scenario table — two rows for tax id
`"X"`, version 3 received 2024-01-10 and version 5 received 2024-01-09 —
the selector returns exactly the version-3 row. -/
theorem get_latest_documents_spec_witness :
    (get_latest_documents [wRowV5, wRowV3]).map (·.versao) = [3] ∧
    (get_latest_documents [wRowV5, wRowV3]).countP
      (fun r => decide (r.cnpj = "X")) = 1 := by
  constructor
  · decide
  · rw [(get_latest_documents_spec [wRowV5, wRowV3]).1 "X"]
    decide

/-- C2: `next_pending` returns at most `limit` records, each drawn from the
store with a status in the requested list (default `[PENDING]`) and a retry
count strictly below `max_retries`, in ascending creation-time order, and
never returns a record whose retry count has reached `max_retries`. -/
theorem get_pending_documents_spec (docs : List StoredDoc) (limit : Nat)
    (statusOpt : Option (List String)) (max_retries : Nat) :
    (get_pending_documents docs limit statusOpt max_retries).length ≤ limit ∧
    (∀ d ∈ get_pending_documents docs limit statusOpt max_retries,
      d ∈ docs ∧
      d.status ∈ statusOpt.getD [ProcessingStatus.pending.value] ∧
      d.tentativas_processamento < max_retries) ∧
    (get_pending_documents docs limit statusOpt max_retries).Pairwise
      (fun a b => a.data_inclusao ≤ b.data_inclusao) ∧
    ∀ d : StoredDoc, max_retries ≤ d.tentativas_processamento →
      d ∉ get_pending_documents docs limit statusOpt max_retries := by
  haveI : IsTotal StoredDoc (fun a b => a.data_inclusao ≤ b.data_inclusao) :=
    ⟨fun a b => Nat.le_total _ _⟩
  haveI : IsTrans StoredDoc (fun a b => a.data_inclusao ≤ b.data_inclusao) :=
    ⟨fun _ _ _ h1 h2 => Nat.le_trans h1 h2⟩
  have hmem : ∀ d ∈ get_pending_documents docs limit statusOpt max_retries,
      d ∈ docs ∧
      d.status ∈ statusOpt.getD [ProcessingStatus.pending.value] ∧
      d.tentativas_processamento < max_retries := by
    intro d hd
    simp only [get_pending_documents] at hd
    have hd1 := List.mem_of_mem_take hd
    have hd2 := (List.perm_insertionSort _ _).mem_iff.mp hd1
    have hd3 := List.mem_of_mem_filter hd2
    have hd4 := List.of_mem_filter hd2
    simp only [Bool.and_eq_true, decide_eq_true_eq] at hd4
    exact ⟨hd3, hd4.1, hd4.2⟩
  refine ⟨?_, hmem, ?_, ?_⟩
  · simp only [get_pending_documents]
    exact List.length_take_le _ _
  · simp only [get_pending_documents]
    exact (List.sorted_insertionSort _ _).sublist (List.take_sublist _ _)
  · intro d hret hd
    have := (hmem d hd).2.2
    omega

/-- Witness for C2: on a three-record store where one record has five
attempts, `next_pending(2, default, 3)` returns at most two records,
excludes the exhausted record, and lists the rest oldest-first. -/
theorem get_pending_documents_spec_witness :
    (get_pending_documents [wPendA, wPendB, wPendC] 2 none 3).length ≤ 2 ∧
    wPendB ∉ get_pending_documents [wPendA, wPendB, wPendC] 2 none 3 ∧
    (get_pending_documents [wPendA, wPendB, wPendC] 2 none 3).map
      (·.data_inclusao) = [7, 10] := by
  refine ⟨(get_pending_documents_spec [wPendA, wPendB, wPendC] 2 none 3).1,
    (get_pending_documents_spec [wPendA, wPendB, wPendC] 2 none 3).2.2.2
      wPendB (by decide), ?_⟩
  decide

/-! ## Lemmas on `update_one` over the list-modelled collection -/

theorem getDoc_update_document_status (docs : List StoredDoc) (docId : Nat)
    (st : ProcessingStatus) (error : Option String)
    (metadata : Option (List (String × MVal))) (now : Nat) {d : StoredDoc}
    (h : getDoc docs docId = some d) :
    getDoc (update_document_status docs docId st error metadata now) docId =
      some (applyStatusUpdate st error metadata now d) := by
  induction docs with
  | nil => simp [getDoc] at h
  | cons a t ih =>
    simp only [getDoc, update_document_status, updateFirst] at h ih ⊢
    by_cases hp : a.id = docId
    · rw [List.find?_cons_of_pos _ (by simpa using hp)] at h
      injection h with h
      subst h
      rw [if_pos (by simpa using hp)]
      exact List.find?_cons_of_pos _ (by simpa using hp)
    · rw [List.find?_cons_of_neg _ (by simpa using hp)] at h
      rw [if_neg (by simpa using hp)]
      rw [List.find?_cons_of_neg _ (by simpa using hp)]
      exact ih h

theorem countP_updateFirst {α : Type} (p : α → Bool) (f : α → α) (l : List α)
    (h : ∀ x, p x = true → p (f x) = true) :
    (updateFirst p f l).countP p = l.countP p := by
  induction l with
  | nil => rfl
  | cons a t ih =>
    simp only [updateFirst]
    by_cases hp : p a = true
    · rw [if_pos hp, List.countP_cons, List.countP_cons, hp, h a hp]
    · rw [if_neg hp, List.countP_cons, List.countP_cons, ih]

theorem find?_updateFirst {α : Type} (p : α → Bool) (f : α → α) (l : List α)
    {x : α} (h : l.find? p = some x) (hf : p (f x) = true) :
    (updateFirst p f l).find? p = some (f x) := by
  induction l with
  | nil => simp at h
  | cons a t ih =>
    by_cases hp : p a = true
    · rw [List.find?_cons_of_pos _ hp] at h
      injection h with h
      subst h
      simp only [updateFirst, if_pos hp]
      exact List.find?_cons_of_pos _ hf
    · rw [List.find?_cons_of_neg _ (by simpa using hp)] at h
      simp only [updateFirst, if_neg hp]
      rw [List.find?_cons_of_neg _ (by simpa using hp)]
      exact ih h

/-- C3: every `advance` call increments the record's retry count by exactly
one, whatever the target status and whether or not an error is supplied;
and the end-to-end scenario record advanced `PENDING → DOWNLOADING →
DOWNLOADED → PROCESSING → XML_EXTRACTED → PROCESSED` ends with retry count
5 and metadata holding the container path, the markup path, and the
extracted payload. -/
theorem update_document_status_increments (docs : List StoredDoc)
    (docId : Nat) (st : ProcessingStatus) (error : Option String)
    (metadata : Option (List (String × MVal))) (now : Nat) (d : StoredDoc)
    (h : getDoc docs docId = some d) :
    ((getDoc (update_document_status docs docId st error metadata now)
        docId).map (·.tentativas_processamento) =
      some (d.tentativas_processamento + 1)) ∧
    (getDoc wStore5 1).map (·.tentativas_processamento) = some 5 ∧
    ((getDoc wStore5 1).map fun d5 => metaLookup d5.meta "arquivos") =
      some (some (MVal.pairs [("zip_path", "/z"), ("xml_path", "/x")])) ∧
    ((getDoc wStore5 1).map fun d5 => metaLookup d5.meta "dados_esg") =
      some (some (MVal.str "payload")) := by
  refine ⟨?_, by decide, by decide, by decide⟩
  rw [getDoc_update_document_status docs docId st error metadata now h]
  rfl

/-- Witness for C3: one `advance` on a fresh record takes its retry count
from 0 to 1. -/
theorem update_document_status_increments_witness :
    (getDoc (update_document_status [wDoc0] 1 .downloading none none 1)
      1).map (·.tentativas_processamento) = some 1 := by
  have h := update_document_status_increments [wDoc0] 1 .downloading none
    none 1 wDoc0 (by decide)
  exact h.1

/-- C4: re-running `create_or_replace` for a key that already has a record
leaves exactly one record for that key; that record keeps only the old
`_id` and is otherwise the fresh document — status back to `PENDING`, retry
count zero, last error cleared, metadata reset to the fresh initial map. -/
theorem insert_document_replaces (docs : List StoredDoc) (row : FilingRow)
    (newId now : Nat) (old : StoredDoc)
    (hone : docs.countP (docKeyMatch row) = 1)
    (hfind : docs.find? (docKeyMatch row) = some old) :
    (insert_document docs row newId now).countP (docKeyMatch row) = 1 ∧
    (insert_document docs row newId now).find? (docKeyMatch row) =
      some (freshDocument row now old.id) ∧
    (freshDocument row now old.id).status = ProcessingStatus.pending.value ∧
    (freshDocument row now old.id).tentativas_processamento = 0 ∧
    (freshDocument row now old.id).ultimo_erro = none ∧
    (freshDocument row now old.id).meta =
      [("arquivos", MVal.pairs []), ("stats", MVal.pairs [])] := by
  have hany : docs.any (docKeyMatch row) = true := by
    rw [List.any_eq_true]
    exact ⟨old, List.mem_of_find?_eq_some hfind, List.find?_some hfind⟩
  have hkey : ∀ x : StoredDoc, docKeyMatch row (freshDocument row now x.id) = true := by
    intro x
    simp [docKeyMatch, freshDocument]
  simp only [insert_document, hany, if_true]
  refine ⟨?_, ?_, rfl, rfl, rfl, rfl⟩
  · rw [countP_updateFirst _ _ _ (fun x _ => hkey x)]
    exact hone
  · exact find?_updateFirst _ _ _ hfind (hkey old)

/-- Witness for C4: inserting the version-5 row over the store already
holding the processed version-3 record for the same (issuer, year) leaves a
single pending record with zero retries. -/
theorem insert_document_replaces_witness :
    (insert_document [wDoc0] wRowV5 99 6).countP (docKeyMatch wRowV5) = 1 ∧
    (insert_document [wDoc0] wRowV5 99 6).find? (docKeyMatch wRowV5) =
      some (freshDocument wRowV5 6 1) := by
  have h := insert_document_replaces [wDoc0] wRowV5 99 6 wDoc0 (by decide)
    (by decide)
  exact ⟨h.1, h.2.1⟩

/-! ## Lemmas on the per-key metadata merge -/

theorem metaLookup_setKey_self {β : Type} (m : List (String × β)) (k : String)
    (v : β) : metaLookup (setKey m k v) k = some v := by
  induction m with
  | nil => simp [setKey, metaLookup]
  | cons kv rest ih =>
    obtain ⟨k', v'⟩ := kv
    simp only [setKey]
    by_cases h : k' = k
    · rw [if_pos h]
      simp [metaLookup]
    · rw [if_neg h]
      simp only [metaLookup, if_neg h]
      exact ih

theorem metaLookup_setKey_other {β : Type} (m : List (String × β))
    (k k' : String) (v : β) (h : k' ≠ k) :
    metaLookup (setKey m k v) k' = metaLookup m k' := by
  induction m with
  | nil =>
    simp only [setKey, metaLookup]
    rw [if_neg (fun hh : k = k' => h hh.symm)]
  | cons kv rest ih =>
    obtain ⟨a, b⟩ := kv
    simp only [setKey]
    by_cases ha : a = k
    · rw [if_pos ha]
      simp only [metaLookup, if_neg (fun hh : k = k' => h hh.symm)]
      rw [ha] at *
      simp only [metaLookup, if_neg (fun hh : k = k' => h hh.symm)]
    · rw [if_neg ha]
      simp only [metaLookup]
      by_cases hak : a = k'
      · rw [if_pos hak, if_pos hak]
      · rw [if_neg hak, if_neg hak]
        exact ih

theorem metaLookup_mem_keys {β : Type} {l : List (String × β)} {k : String}
    {v : β} (h : metaLookup l k = some v) : k ∈ l.map Prod.fst := by
  induction l with
  | nil => simp [metaLookup] at h
  | cons kv rest ih =>
    obtain ⟨a, b⟩ := kv
    simp only [metaLookup] at h
    by_cases ha : a = k
    · simp [ha]
    · rw [if_neg ha] at h
      simp only [List.map_cons, List.mem_cons]
      exact Or.inr (ih h)

theorem metaLookup_setKeys_not_mem {β : Type} (m patch : List (String × β))
    (k : String) (h : k ∉ patch.map Prod.fst) :
    metaLookup (setKeys m patch) k = metaLookup m k := by
  induction patch generalizing m with
  | nil => rfl
  | cons kv rest ih =>
    obtain ⟨k1, v1⟩ := kv
    simp only [List.map_cons, List.mem_cons] at h
    push_neg at h
    obtain ⟨h1, h2⟩ := h
    simp only [setKeys]
    rw [ih _ h2]
    exact metaLookup_setKey_other _ _ _ _ h1

theorem metaLookup_setKeys_mem {β : Type} (m patch : List (String × β))
    (k : String) (v : β) (hnd : (patch.map Prod.fst).Nodup)
    (h : metaLookup patch k = some v) :
    metaLookup (setKeys m patch) k = some v := by
  induction patch generalizing m with
  | nil => simp [metaLookup] at h
  | cons kv rest ih =>
    obtain ⟨k1, v1⟩ := kv
    simp only [List.map_cons, List.nodup_cons] at hnd
    obtain ⟨hk1, hndr⟩ := hnd
    simp only [metaLookup] at h
    simp only [setKeys]
    by_cases hk : k1 = k
    · rw [if_pos hk] at h
      injection h with h
      subst h
      subst hk
      rw [metaLookup_setKeys_not_mem _ _ _ hk1]
      exact metaLookup_setKey_self _ _ _
    · rw [if_neg hk] at h
      exact ih _ hndr h

/-- C8: two successive `advance` calls on the same record with nonempty
metadata patches over disjoint key sets leave both patches readable in the
record's metadata map, and leave every key named in neither patch
unchanged — the merge is per key, not a replacement of the whole map. -/
theorem update_document_status_merges (docs : List StoredDoc) (docId : Nat)
    (st1 st2 : ProcessingStatus) (p1 p2 : List (String × MVal)) (t1 t2 : Nat)
    (d : StoredDoc) (h : getDoc docs docId = some d)
    (hne1 : p1 ≠ []) (hne2 : p2 ≠ [])
    (hnd1 : (p1.map Prod.fst).Nodup) (hnd2 : (p2.map Prod.fst).Nodup)
    (hdisj : ∀ k, k ∈ p1.map Prod.fst → k ∉ p2.map Prod.fst) :
    ∃ d', getDoc (update_document_status
        (update_document_status docs docId st1 none (some p1) t1)
        docId st2 none (some p2) t2) docId = some d' ∧
      d'.meta = setKeys (setKeys d.meta p1) p2 ∧
      (∀ k v, metaLookup p1 k = some v → metaLookup d'.meta k = some v) ∧
      (∀ k v, metaLookup p2 k = some v → metaLookup d'.meta k = some v) ∧
      (∀ k, k ∉ p1.map Prod.fst → k ∉ p2.map Prod.fst →
        metaLookup d'.meta k = metaLookup d.meta k) := by
  have hq1 : p1.isEmpty = false := by
    cases p1 with
    | nil => exact absurd rfl hne1
    | cons a t => rfl
  have hq2 : p2.isEmpty = false := by
    cases p2 with
    | nil => exact absurd rfl hne2
    | cons a t => rfl
  have h1 := getDoc_update_document_status docs docId st1 none (some p1) t1 h
  have h2 := getDoc_update_document_status _ docId st2 none (some p2) t2 h1
  refine ⟨_, h2, ?_⟩
  have hmeta : (applyStatusUpdate st2 none (some p2) t2
      (applyStatusUpdate st1 none (some p1) t1 d)).meta =
      setKeys (setKeys d.meta p1) p2 := by
    simp [applyStatusUpdate, hq1, hq2]
  refine ⟨hmeta, ?_, ?_, ?_⟩
  · intro k v hv
    rw [hmeta, metaLookup_setKeys_not_mem _ _ _
      (hdisj k (metaLookup_mem_keys hv))]
    exact metaLookup_setKeys_mem _ _ _ _ hnd1 hv
  · intro k v hv
    rw [hmeta]
    exact metaLookup_setKeys_mem _ _ _ _ hnd2 hv
  · intro k hk1 hk2
    rw [hmeta, metaLookup_setKeys_not_mem _ _ _ hk2,
      metaLookup_setKeys_not_mem _ _ _ hk1]

/-- Witness for C8: patching `arquivos` and then `dados_esg` on the fresh
record leaves both keys readable and the untouched `stats` key intact. -/
theorem update_document_status_merges_witness :
    ∃ d', getDoc (update_document_status
        (update_document_status [wDoc0] 1 .downloaded none
          (some [("arquivos", MVal.pairs [("zip_path", "/z")])]) 2)
        1 .processed none (some [("dados_esg", MVal.str "payload")]) 3)
      1 = some d' ∧
      metaLookup d'.meta "arquivos" =
        some (MVal.pairs [("zip_path", "/z")]) ∧
      metaLookup d'.meta "dados_esg" = some (MVal.str "payload") ∧
      metaLookup d'.meta "stats" = metaLookup wDoc0.meta "stats" := by
  obtain ⟨d', hd, _, hp1, hp2, hrest⟩ :=
    update_document_status_merges [wDoc0] 1 .downloaded .processed
      [("arquivos", MVal.pairs [("zip_path", "/z")])]
      [("dados_esg", MVal.str "payload")] 2 3 wDoc0
      (by decide) (by decide) (by decide) (by decide) (by decide)
      (by decide)
  exact ⟨d', hd, hp1 "arquivos" _ (by decide), hp2 "dados_esg" _ (by decide),
    hrest "stats" (by decide) (by decide)⟩

/-- Counterexample to C5 as stated: the stored file name is
`f"{section_name}_{hash}.pdf"`, so the same binary payload saved under two
different section names yields the same content hash but two distinct file
names — identical payloads across sections do not collapse to identical
names. -/
theorem save_pdf_counterexample :
    ∃ i1 i2 : PdfInfo,
      save_pdf [1, 2, 3] "info_asg" "/t" = some i1 ∧
      save_pdf [1, 2, 3] "gestao_riscos" "/t" = some i2 ∧
      i1.hash = i2.hash ∧ i1.nome_arquivo ≠ i2.nome_arquivo := by
  refine ⟨_, _, rfl, rfl, rfl, ?_⟩
  decide

/-- C5 amended: two stored attachments with identical binary content always
receive identical content hashes; they receive identical file names when
they are additionally stored under the same section name; and re-extracting
the same document a second time produces no file name the first extraction
did not already produce. -/
theorem save_pdf_content_addressed :
    (∀ (c1 c2 : List Nat) (s1 s2 d1 d2 : String) (i1 i2 : PdfInfo),
      c1 = c2 → save_pdf c1 s1 d1 = some i1 → save_pdf c2 s2 d2 = some i2 →
      i1.hash = i2.hash) ∧
    (∀ (c1 c2 : List Nat) (s d1 d2 : String) (i1 i2 : PdfInfo),
      c1 = c2 → save_pdf c1 s d1 = some i1 → save_pdf c2 s d2 = some i2 →
      i1.nome_arquivo = i2.nome_arquivo) ∧
    (∀ (payloads : List (String × List Nat)) (dir n : String),
      n ∈ ((extract_documents payloads dir ++ extract_documents payloads dir).map
        fun x => x.2.nome_arquivo) →
      n ∈ ((extract_documents payloads dir).map fun x => x.2.nome_arquivo)) := by
  refine ⟨?_, ?_, ?_⟩
  · intro c1 c2 s1 s2 d1 d2 i1 i2 hc h1 h2
    subst hc
    simp only [save_pdf] at h1 h2
    by_cases hz : c1 = []
    · rw [if_pos hz] at h1
      exact absurd h1 (by simp)
    · rw [if_neg hz] at h1 h2
      injection h1 with h1
      injection h2 with h2
      rw [← h1, ← h2]
  · intro c1 c2 s d1 d2 i1 i2 hc h1 h2
    subst hc
    simp only [save_pdf] at h1 h2
    by_cases hz : c1 = []
    · rw [if_pos hz] at h1
      exact absurd h1 (by simp)
    · rw [if_neg hz] at h1 h2
      injection h1 with h1
      injection h2 with h2
      rw [← h1, ← h2]
  · intro payloads dir n hn
    rw [List.map_append] at hn
    rcases List.mem_append.mp hn with hn | hn
    · exact hn
    · exact hn

/-- Witness for C5 (amended): the same payload stored twice under the same
section name, in two directories, gets one hash and one file name. -/
theorem save_pdf_content_addressed_witness :
    ∃ i1 i2 : PdfInfo,
      save_pdf [9] "info_asg" "/a" = some i1 ∧
      save_pdf [9] "info_asg" "/b" = some i2 ∧
      i1.hash = i2.hash ∧ i1.nome_arquivo = i2.nome_arquivo := by
  refine ⟨_, _, rfl, rfl, ?_, ?_⟩
  · exact save_pdf_content_addressed.1 [9] [9] "info_asg" "info_asg" "/a"
      "/b" _ _ rfl rfl rfl
  · exact save_pdf_content_addressed.2.1 [9] [9] "info_asg" "/a" "/b" _ _
      rfl rfl rfl

/-- C6: every member the Archive Resolver returns is a `.xml` member of the
container that contains the expected
`{cod:06d}FRE{dd-mm-yyyy}v{versao}` fragment and does not contain the
`FormularioCadastral` registration-form marker; when no member passes both
tests the resolver raises the `ValueError` carrying the expected pattern
instead of returning a path. -/
theorem extract_fre_xml_spec (namelist : List String)
    (cod_cvm day month year versao : Nat) :
    (∀ f, extract_fre_xml namelist cod_cvm day month year versao =
        Except.ok f →
      f ∈ namelist ∧ strEndsWithB f ".xml" = true ∧
      strContainsB f (expected_pattern cod_cvm day month year versao) = true ∧
      strContainsB f "FormularioCadastral" = false) ∧
    ((∀ f ∈ namelist, strEndsWithB f ".xml" = true →
        freMatch (expected_pattern cod_cvm day month year versao) f = false) →
      extract_fre_xml namelist cod_cvm day month year versao =
        Except.error ("XML do FRE nao encontrado para o padrao: " ++
          expected_pattern cod_cvm day month year versao)) := by
  constructor
  · intro f hf
    simp only [extract_fre_xml] at hf
    cases hfind : (namelist.filter fun g => strEndsWithB g ".xml").find?
        (freMatch (expected_pattern cod_cvm day month year versao)) with
    | none =>
      rw [hfind] at hf
      exact absurd hf (by simp)
    | some g =>
      rw [hfind] at hf
      injection hf with hf
      subst hf
      have hmem := List.mem_of_find?_eq_some hfind
      have hmatch := List.find?_some hfind
      simp only [freMatch, Bool.and_eq_true, Bool.not_eq_true'] at hmatch
      refine ⟨List.mem_of_mem_filter hmem, ?_, hmatch.2, hmatch.1⟩
      simpa using List.of_mem_filter hmem
  · intro hall
    simp only [extract_fre_xml]
    have hnone : (namelist.filter fun g => strEndsWithB g ".xml").find?
        (freMatch (expected_pattern cod_cvm day month year versao)) = none := by
      rw [List.find?_eq_none]
      intro g hg
      have h1 := List.mem_of_mem_filter hg
      have h2 := List.of_mem_filter hg
      rw [hall g h1 h2]
      simp
    rw [hnone]

/-- Witness for C6: the end-to-end scenario for issuer 14206, reference
date 2024-12-31, version 6 — the member carrying the registration-form
marker is rejected even though it contains the pattern, the plain member is
returned, and an unmatched container raises the error. -/
theorem extract_fre_xml_spec_witness :
    extract_fre_xml
      ["a/014206FRE31-12-2024v6FormularioCadastral.xml",
       "b/014206FRE31-12-2024v6.xml"] 14206 31 12 2024 6 =
      Except.ok "b/014206FRE31-12-2024v6.xml" ∧
    strContainsB "b/014206FRE31-12-2024v6.xml"
      (expected_pattern 14206 31 12 2024 6) = true ∧
    extract_fre_xml ["nada.xml"] 14206 31 12 2024 6 =
      Except.error ("XML do FRE nao encontrado para o padrao: " ++
        expected_pattern 14206 31 12 2024 6) := by
  refine ⟨rfl, ?_, ?_⟩
  · exact ((extract_fre_xml_spec
      ["a/014206FRE31-12-2024v6FormularioCadastral.xml",
       "b/014206FRE31-12-2024v6.xml"] 14206 31 12 2024 6).1 _ rfl).2.2.1
  · exact (extract_fre_xml_spec ["nada.xml"] 14206 31 12 2024 6).2
      (by decide)

/-- C10: when several markup members satisfy the matching rule, the
resolver returns the first satisfying `.xml` member in the container's
member-list order; being a function of the container listing and the
parameters, it returns the same member on every run over the same
input. -/
theorem extract_fre_xml_first_match (namelist : List String)
    (cod_cvm day month year versao : Nat) (l1 : List String) (f : String)
    (l2 : List String)
    (hsplit : namelist.filter (fun g => strEndsWithB g ".xml") =
      l1 ++ f :: l2)
    (hl1 : ∀ g ∈ l1,
      freMatch (expected_pattern cod_cvm day month year versao) g = false)
    (hf : freMatch (expected_pattern cod_cvm day month year versao) f = true) :
    extract_fre_xml namelist cod_cvm day month year versao = Except.ok f := by
  have key : ∀ m : List String,
      (∀ g ∈ m,
        freMatch (expected_pattern cod_cvm day month year versao) g = false) →
      (m ++ f :: l2).find?
        (freMatch (expected_pattern cod_cvm day month year versao)) =
        some f := by
    intro m
    induction m with
    | nil =>
      intro _
      simp only [List.nil_append]
      exact List.find?_cons_of_pos _ hf
    | cons a t ih =>
      intro hm
      simp only [List.cons_append]
      rw [List.find?_cons_of_neg _ (by simp [hm a (List.mem_cons_self a t)])]
      exact ih fun g hg => hm g (List.mem_cons_of_mem a hg)
  simp only [extract_fre_xml, hsplit, key l1 hl1]

/-- Witness for C10: a container with two matching members resolves to the
first one. -/
theorem extract_fre_xml_first_match_witness :
    extract_fre_xml
      ["p/014206FRE31-12-2024v6.xml", "q/014206FRE31-12-2024v6.xml"]
      14206 31 12 2024 6 = Except.ok "p/014206FRE31-12-2024v6.xml" := by
  exact extract_fre_xml_first_match
    ["p/014206FRE31-12-2024v6.xml", "q/014206FRE31-12-2024v6.xml"]
    14206 31 12 2024 6 [] "p/014206FRE31-12-2024v6.xml"
    ["q/014206FRE31-12-2024v6.xml"] (by decide) (by decide) (by decide)

/-- C7: the numeric leaf extractors are total functions that return `0`
(integer case) and `0` (float case, an exact rational) whenever the leaf is
absent, its text is missing or empty, or its text does not parse as a
number; a missing or malformed optional numeric leaf can therefore never
fail an extraction. -/
theorem numeric_leaf_defaults (e : XElem) (tag : String) :
    (e.find tag = none →
      get_int_value e tag = 0 ∧ get_float_value e tag = 0) ∧
    (∀ leaf : XElem, e.find tag = some leaf →
      ((leaf.text = none ∨ leaf.text = some "") →
        get_int_value e tag = 0 ∧ get_float_value e tag = 0) ∧
      (∀ s, leaf.text = some s → pyParseInt s = none →
        get_int_value e tag = 0) ∧
      (∀ s, leaf.text = some s → pyParseFloat s = none →
        get_float_value e tag = 0)) := by
  constructor
  · intro h
    constructor
    · simp [get_int_value, h]
    · simp [get_float_value, h]
  · intro leaf hleaf
    refine ⟨?_, ?_, ?_⟩
    · intro htext
      rcases htext with h | h
      · constructor
        · simp [get_int_value, hleaf, h]
        · simp [get_float_value, hleaf, h]
      · constructor
        · simp [get_int_value, hleaf, h]
        · simp [get_float_value, hleaf, h]
    · intro s hs hparse
      by_cases hz : s = ""
      · simp [get_int_value, hleaf, hs, hz]
      · simp [get_int_value, hleaf, hs, hz, hparse]
    · intro s hs hparse
      by_cases hz : s = ""
      · simp [get_float_value, hleaf, hs, hz]
      · simp [get_float_value, hleaf, hs, hz, hparse]

/-- Witness for C7: a malformed integer leaf, an empty float leaf and an
absent leaf all yield zero. -/
theorem numeric_leaf_defaults_witness :
    get_int_value wElem "Amarelo" = 0 ∧
    get_float_value wElem "RazaoRemuneracoes" = 0 ∧
    get_int_value wElem "Faltando" = 0 := by
  refine ⟨?_, ?_, ?_⟩
  · exact ((numeric_leaf_defaults wElem "Amarelo").2
      (.node "Amarelo" (some "xx") []) rfl).2.1 "xx" rfl (by decide)
  · exact (((numeric_leaf_defaults wElem "RazaoRemuneracoes").2
      (.node "RazaoRemuneracoes" none []) rfl).1 (Or.inl rfl)).2
  · exact ((numeric_leaf_defaults wElem "Faltando").1 rfl).1

/-! ## Lemmas on the two-pass diversity extraction -/

theorem updateFirst_map_eq {α β : Type} (p : α → Bool) (f : α → α)
    (g : α → β) (l : List α) (h : ∀ x, g (f x) = g x) :
    (updateFirst p f l).map g = l.map g := by
  induction l with
  | nil => rfl
  | cons a t ih =>
    simp only [updateFirst]
    by_cases hp : p a = true
    · rw [if_pos hp]
      simp [List.map_cons, h]
    · rw [if_neg hp]
      simp [List.map_cons, ih]

theorem countP_updateFirst_congr {α : Type} (p q : α → Bool) (f : α → α)
    (l : List α) (h : ∀ x, p (f x) = p x) :
    (updateFirst q f l).countP p = l.countP p := by
  induction l with
  | nil => rfl
  | cons a t ih =>
    simp only [updateFirst]
    by_cases hq : q a = true
    · rw [if_pos hq, List.countP_cons, List.countP_cons, h]
    · rw [if_neg hq, List.countP_cons, List.countP_cons, ih]

theorem admin_diversity_step_nodup {acc : List DivRecord} {e : XElem}
    (h : (acc.map (·.orgao)).Nodup) :
    ((admin_diversity_step acc e).map (·.orgao)).Nodup := by
  cases hfind : e.find "OrgaoAdministracao" with
  | none => simpa [admin_diversity_step, hfind] using h
  | some orgao =>
    simp only [admin_diversity_step, hfind]
    by_cases hany : acc.any (fun d => decide (d.orgao = orgao.text)) = true
    · rw [if_pos hany, updateFirst_map_eq
        (fun d => decide (d.orgao = orgao.text))
        (fun d => { d with genero := some (generoOf e) })
        (fun x => x.orgao) acc (fun x => rfl)]
      exact h
    · rw [if_neg hany, List.map_append]
      have hnotin : orgao.text ∉ acc.map (·.orgao) := by
        intro hmem
        rw [List.mem_map] at hmem
        obtain ⟨d, hd, hdo⟩ := hmem
        exact hany (List.any_eq_true.mpr ⟨d, hd, by simp [hdo]⟩)
      refine (List.Perm.nodup_iff (List.perm_append_singleton _ _)).mpr ?_
      exact List.nodup_cons.mpr ⟨hnotin, h⟩

theorem admin_diversity_step_count {acc : List DivRecord} {e : XElem}
    {c : Option String} (hc : c ∈ acc.map (·.orgao)) :
    c ∈ (admin_diversity_step acc e).map (·.orgao) ∧
    (admin_diversity_step acc e).countP (fun d => decide (d.orgao = c)) =
      acc.countP (fun d => decide (d.orgao = c)) := by
  cases hfind : e.find "OrgaoAdministracao" with
  | none => simp [admin_diversity_step, hfind, hc]
  | some orgao =>
    simp only [admin_diversity_step, hfind]
    by_cases hany : acc.any (fun d => decide (d.orgao = orgao.text)) = true
    · rw [if_pos hany, updateFirst_map_eq
        (fun d => decide (d.orgao = orgao.text))
        (fun d => { d with genero := some (generoOf e) })
        (fun x => x.orgao) acc (fun x => rfl),
        countP_updateFirst_congr (fun d => decide (d.orgao = c))
        (fun d => decide (d.orgao = orgao.text))
        (fun d => { d with genero := some (generoOf e) }) acc
        (fun x => rfl)]
      exact ⟨hc, rfl⟩
    · rw [if_neg hany]
      constructor
      · rw [List.map_append]
        exact List.mem_append_left _ hc
      · rw [List.countP_append]
        have hne : decide
            (({ orgao := orgao.text, cor_raca := none,
                genero := some (generoOf e) } : DivRecord).orgao = c) =
            false := by
          simp only [decide_eq_false_iff_not]
          intro hEq
          obtain ⟨d, hd, hdo⟩ := List.mem_map.mp hc
          exact hany (List.any_eq_true.mpr ⟨d, hd, by simp [hdo, ← hEq]⟩)
        simp [hne]

theorem admin_diversity_fold_nodup (gen : List XElem)
    (acc : List DivRecord) (h : (acc.map (·.orgao)).Nodup) :
    ((gen.foldl admin_diversity_step acc).map (·.orgao)).Nodup := by
  induction gen generalizing acc with
  | nil => exact h
  | cons e t ih => exact ih _ (admin_diversity_step_nodup h)

theorem admin_diversity_fold_count (gen : List XElem)
    (acc : List DivRecord) (c : Option String)
    (hc : c ∈ acc.map (·.orgao)) :
    (gen.foldl admin_diversity_step acc).countP
        (fun d => decide (d.orgao = c)) =
      acc.countP (fun d => decide (d.orgao = c)) := by
  induction gen generalizing acc with
  | nil => rfl
  | cons e t ih =>
    obtain ⟨hmem, hcount⟩ := admin_diversity_step_count (e := e) hc
    rw [List.foldl_cons, ih _ hmem, hcount]

theorem mem_updateFirst_of_neg {α : Type} (p : α → Bool) (f : α → α)
    {l : List α} {x : α} (hx : x ∈ l) (hp : p x = false) :
    x ∈ updateFirst p f l := by
  induction l with
  | nil => simp at hx
  | cons a t ih =>
    simp only [updateFirst]
    by_cases ha : p a = true
    · rw [if_pos ha]
      rcases List.mem_cons.mp hx with rfl | hx'
      · rw [ha] at hp
        exact absurd hp (by simp)
      · exact List.mem_cons_of_mem _ hx'
    · rw [if_neg ha]
      rcases List.mem_cons.mp hx with rfl | hx'
      · exact List.mem_cons_self _ _
      · exact List.mem_cons_of_mem _ (ih hx')

theorem updateFirst_attach {acc : List DivRecord} {d' : DivRecord}
    (f : DivRecord → DivRecord) (hnd : (acc.map (·.orgao)).Nodup)
    (hmem : d' ∈ acc) :
    f d' ∈ updateFirst (fun d => decide (d.orgao = d'.orgao)) f acc := by
  induction acc with
  | nil => simp at hmem
  | cons a t ih =>
    simp only [List.map_cons, List.nodup_cons] at hnd
    obtain ⟨hna, hnt⟩ := hnd
    simp only [updateFirst]
    by_cases hp : a.orgao = d'.orgao
    · rw [if_pos (by simp [hp])]
      rcases List.mem_cons.mp hmem with rfl | hmem'
      · exact List.mem_cons_self _ _
      · exact absurd (List.mem_map.mpr ⟨d', hmem', hp.symm⟩) hna
    · rw [if_neg (by simp [hp])]
      rcases List.mem_cons.mp hmem with rfl | hmem'
      · exact absurd rfl hp
      · exact List.mem_cons_of_mem _ (ih hnt hmem')

theorem admin_diversity_fold_attach (gen : List XElem) :
    ∀ (acc : List DivRecord) (d' : DivRecord),
      (acc.map (·.orgao)).Nodup → d' ∈ acc →
      ∃ d'', d'' ∈ gen.foldl admin_diversity_step acc ∧
        d''.orgao = d'.orgao ∧ d''.cor_raca = d'.cor_raca ∧
        d''.genero = (match lastGenderFor gen d'.orgao with
          | none => d'.genero
          | some e => some (generoOf e)) := by
  induction gen with
  | nil =>
    intro acc d' _ hmem
    exact ⟨d', hmem, rfl, rfl, rfl⟩
  | cons e t ih =>
    intro acc d' hnd hmem
    have step_track : ∃ d1, d1 ∈ admin_diversity_step acc e ∧
        d1.orgao = d'.orgao ∧ d1.cor_raca = d'.cor_raca ∧
        d1.genero = (match e.find "OrgaoAdministracao" with
          | none => d'.genero
          | some orgao =>
            if orgao.text = d'.orgao then some (generoOf e)
            else d'.genero) := by
      cases hfind : e.find "OrgaoAdministracao" with
      | none =>
        exact ⟨d', by simpa [admin_diversity_step, hfind] using hmem,
          rfl, rfl, by simp [hfind]⟩
      | some orgao =>
        by_cases hm : orgao.text = d'.orgao
        · have hany : acc.any (fun d => decide (d.orgao = orgao.text)) =
              true :=
            List.any_eq_true.mpr ⟨d', hmem, by simp [hm]⟩
          refine ⟨{ d' with genero := some (generoOf e) }, ?_, rfl, rfl,
            by simp [hfind, hm]⟩
          simp only [admin_diversity_step, hfind, hany, if_true]
          rw [hm]
          exact updateFirst_attach _ hnd hmem
        · by_cases hany : acc.any (fun d => decide (d.orgao = orgao.text)) =
              true
          · refine ⟨d', ?_, rfl, rfl, by simp [hfind, hm]⟩
            simp only [admin_diversity_step, hfind, hany, if_true]
            exact mem_updateFirst_of_neg _ _ hmem
              (by
                simp only [decide_eq_false_iff_not]
                exact fun hh => hm hh.symm)
          · refine ⟨d', ?_, rfl, rfl, by simp [hfind, hm]⟩
            simp only [admin_diversity_step, hfind]
            rw [if_neg hany]
            exact List.mem_append_left _ hmem
    obtain ⟨d1, h1mem, h1o, h1c, h1g⟩ := step_track
    have hnd1 : ((admin_diversity_step acc e).map (·.orgao)).Nodup :=
      admin_diversity_step_nodup hnd
    obtain ⟨d'', h2mem, h2o, h2c, h2g⟩ :=
      ih (admin_diversity_step acc e) d1 hnd1 h1mem
    rw [List.foldl_cons]
    refine ⟨d'', h2mem, h2o.trans h1o, h2c.trans h1c, ?_⟩
    rw [h1o] at h2g
    cases hlast : lastGenderFor t d'.orgao with
    | some e' =>
      rw [hlast] at h2g
      have hcons : lastGenderFor (e :: t) d'.orgao = some e' := by
        simp [lastGenderFor, hlast]
      rw [hcons]
      exact h2g
    | none =>
      rw [hlast] at h2g
      rw [h2g, h1g]
      cases hfind : e.find "OrgaoAdministracao" with
      | none =>
        have hcons : lastGenderFor (e :: t) d'.orgao = none := by
          simp [lastGenderFor, hlast, hfind]
        rw [hcons]
      | some orgao =>
        by_cases hm : orgao.text = d'.orgao
        · have hcons : lastGenderFor (e :: t) d'.orgao = some e := by
            simp [lastGenderFor, hlast, hfind, hm]
          rw [hcons]
          simp [hm]
        · have hcons : lastGenderFor (e :: t) d'.orgao = none := by
            simp [lastGenderFor, hlast, hfind, hm]
          rw [hcons]
          simp [hm]

/-- C9: whenever the ethnicity/race pass produced at most one diversity
record per governing-body name, the gender pass keeps it that way — the
final output has no duplicated governing-body name and the number of
records per first-pass name is unchanged; moreover each first-pass record
survives into the output as a record with the same name that still carries
its ethnicity/race breakdown and now carries, as its gender breakdown,
exactly the data of the last gender entry naming that body — so the second
pass attaches gender data to the existing record instead of appending a
duplicate, and a record keeps no gender key only when no gender entry names
its body. -/
theorem extract_admin_diversity_spec (racaElems generoElems : List XElem)
    (h : ((admin_diversity_pass1 racaElems).map (·.orgao)).Nodup) :
    ((extract_admin_diversity racaElems generoElems).map (·.orgao)).Nodup ∧
    (∀ c : Option String,
      c ∈ (admin_diversity_pass1 racaElems).map (·.orgao) →
      (extract_admin_diversity racaElems generoElems).countP
          (fun d => decide (d.orgao = c)) =
        (admin_diversity_pass1 racaElems).countP
          (fun d => decide (d.orgao = c))) ∧
    ∀ d0 ∈ admin_diversity_pass1 racaElems,
      ∃ d', d' ∈ extract_admin_diversity racaElems generoElems ∧
        d'.orgao = d0.orgao ∧ d'.cor_raca = d0.cor_raca ∧
        d'.genero = (match lastGenderFor generoElems d0.orgao with
          | none => d0.genero
          | some e => some (generoOf e)) := by
  refine ⟨admin_diversity_fold_nodup _ _ h, ?_, ?_⟩
  · intro c hc
    exact admin_diversity_fold_count _ _ c hc
  · intro d0 hd0
    exact admin_diversity_fold_attach generoElems _ d0 h hd0

/-- Witness for C9: one race entry for `"Conselho"` and two gender
entries — one for `"Conselho"`, one for the new body `"Fiscal"` — yield
exactly the two records, with the `"Conselho"` record carrying both its
first-pass ethnicity/race data and the gender breakdown of the matching
entry. -/
theorem extract_admin_diversity_spec_witness :
    ((extract_admin_diversity [wRacaElem] [wGenElem, wGenElem2]).map
      (·.orgao)).Nodup ∧
    (extract_admin_diversity [wRacaElem] [wGenElem, wGenElem2]).countP
      (fun d => decide (d.orgao = some "Conselho")) = 1 ∧
    (∃ d', d' ∈ extract_admin_diversity [wRacaElem] [wGenElem, wGenElem2] ∧
      d'.orgao = some "Conselho" ∧
      d'.cor_raca = some (corRacaOf wRacaElem) ∧
      d'.genero = some (generoOf wGenElem)) ∧
    extract_admin_diversity [wRacaElem] [wGenElem, wGenElem2] =
      [{ orgao := some "Conselho", cor_raca := some (corRacaOf wRacaElem),
         genero := some (generoOf wGenElem) },
       { orgao := some "Fiscal", cor_raca := none,
         genero := some (generoOf wGenElem2) }] := by
  have h := extract_admin_diversity_spec [wRacaElem] [wGenElem, wGenElem2]
    (by decide)
  refine ⟨h.1, ?_, ?_, by decide⟩
  · rw [h.2.1 (some "Conselho") (by decide)]
    decide
  · obtain ⟨d', hm, ho, hc, hg⟩ := h.2.2
      { orgao := some "Conselho", cor_raca := some (corRacaOf wRacaElem),
        genero := none } (by decide)
    exact ⟨d', hm, ho, by simpa using hc, by simpa using hg⟩

end LupaESG
